import Mathlib

/-
Shallow embedding of the transcript parsing, conversation segmentation and
reply-latency classification core of src/untitled0.py.

Modelling conventions:
- Timestamps are integers counting seconds (the program's datetimes have
  minute resolution; timedelta comparisons in the code are in seconds).
- The two external collaborators used inside parse_chat are passed as
  parameters: fb models pd.to_datetime(..., dayfirst=True) (the fallback
  timestamp parse) and ex models emoji.distinct_emoji_list.
- A raised Python exception is modelled as Except.error (for parse_chat) or
  as Option.none (for get_conversation_ends, whose df.iloc[0] raises
  IndexError on an empty frame).
- Python str.strip / str.lower / the regex class \s are modelled on the
  ASCII range via Char.isWhitespace / Char.toLower.
-/

set_option linter.unusedVariables false

namespace ChatApp

/-- Whitespace test used by the embedding (models Python str.strip and the
regex class \s on the inputs the program handles). -/
def isWs (c : Char) : Bool := c.isWhitespace

/-- Drop leading and trailing whitespace from a character list
(models Python str.strip()). -/
def trimChars (cs : List Char) : List Char :=
  ((cs.dropWhile isWs).reverse.dropWhile isWs).reverse

/-- String version of trimChars (models str.strip()). -/
def trimStr (s : String) : String := String.mk (trimChars s.toList)

/-- Lower-case a string (models str.lower() on the ASCII range). -/
def strLower (s : String) : String := String.mk (s.toList.map Char.toLower)

/-- Decides whether the first list is an initial segment of the second. -/
def isPrefixCL : List Char → List Char → Bool
  | [], _ => true
  | _ :: _, [] => false
  | a :: as, b :: bs => a == b && isPrefixCL as bs

/-- Decides whether needle occurs contiguously inside hay
(models the Python expression needle in hay for strings). -/
def hasInfixCL : List Char → List Char → Bool
  | [], needle => isPrefixCL needle []
  | c :: t, needle => isPrefixCL needle (c :: t) || hasInfixCL t needle

/-- Substring test on strings (models the Python in operator). -/
def containsSub (hay needle : String) : Bool := hasInfixCL hay.toList needle.toList

/-- Gregorian leap-year rule, as implemented by Python's datetime. -/
def isLeap (y : Nat) : Bool := y % 4 == 0 && (y % 100 != 0 || y % 400 == 0)

/-- Number of days of month m (1-12) in year y. -/
def daysInMonth (y m : Nat) : Nat :=
  if m = 2 then (if isLeap y then 29 else 28)
  else if m = 4 ∨ m = 6 ∨ m = 9 ∨ m = 11 then 30
  else 31

/-- Days of year y that precede the first day of month m. -/
def daysBeforeMonth (y m : Nat) : Nat :=
  (List.range (m - 1)).foldl (fun acc k => acc + daysInMonth y (k + 1)) 0

/-- Day count of the proleptic Gregorian calendar (day 0 is 1 Jan of year 1),
the linearization underlying datetime subtraction. -/
def rataDie (y m d : Nat) : Nat :=
  365 * (y - 1) + (y - 1) / 4 - (y - 1) / 100 + (y - 1) / 400
    + daysBeforeMonth y m + (d - 1)

/-- Seconds-valued timestamp of a calendar date-time, the linearization of a
Python datetime on which subtraction yields timedelta.total_seconds(). -/
def tsOf (y m d hh mi : Nat) : Int :=
  ((rataDie y m d * 1440 + hh * 60 + mi) * 60 : Nat)

/-- Range validation plus conversion for a date-time, exactly the checks under
which datetime(...) construction succeeds (datetime.MINYEAR is 1; the day must
fit the month, hours run 0-23, minutes 0-59). -/
def mkTimestamp (d m y hh mi : Nat) : Option Int :=
  if 1 ≤ y ∧ 1 ≤ m ∧ m ≤ 12 ∧ 1 ≤ d ∧ d ≤ daysInMonth y m ∧ hh ≤ 23 ∧ mi ≤ 59 then
    some (tsOf y m d hh mi)
  else none

/-- Read a nonempty all-digit character list as a decimal number. -/
def readNatDigits (cs : List Char) : Option Nat :=
  if cs ≠ [] ∧ cs.all Char.isDigit then
    some (cs.foldl (fun a c => a * 10 + (c.toNat - 48)) 0)
  else none

/-- Accumulator pass of splitOnChar. -/
def splitOnCharAux (sep : Char) : List Char → List Char → List (List Char)
  | [], cur => [cur.reverse]
  | c :: cs, cur =>
    if c == sep then cur.reverse :: splitOnCharAux sep cs []
    else splitOnCharAux sep cs (c :: cur)

/-- Split a string at every occurrence of sep (Python str.split(sep)). -/
def splitOnChar (sep : Char) (s : String) : List (List Char) :=
  splitOnCharAux sep s.toList []

/-- Strict timestamp parse: datetime.strptime(f"{date} {time}", "%d.%m.%Y %H:%M"),
with none where Python raises ValueError. -/
def strictParse (dateStr timeStr : String) : Option Int :=
  match splitOnChar '.' dateStr, splitOnChar ':' timeStr with
  | [ds, ms, ys], [hs, mis] =>
    match readNatDigits ds, readNatDigits ms, readNatDigits ys,
        readNatDigits hs, readNatDigits mis with
    | some d, some m, some y, some h, some mi => mkTimestamp d m y h mi
    | _, _, _, _, _ => none
  | _, _ => none

/-- Modelled from the spec: the fallback pd.to_datetime(..., dayfirst=True)
lives in pandas, outside src/; the spec describes it as day-first
disambiguation that must never reject an otherwise well-formed date. Model:
read the pair as day.month, and when that is not a valid calendar date retry
with the two fields swapped. Claim theorems quantify over the fallback, so
they do not depend on this concrete model; it only instantiates witnesses. -/
def fallbackParse (dateStr timeStr : String) : Option Int :=
  match splitOnChar '.' dateStr, splitOnChar ':' timeStr with
  | [as, bs, ys], [hs, mis] =>
    match readNatDigits as, readNatDigits bs, readNatDigits ys,
        readNatDigits hs, readNatDigits mis with
    | some a, some b, some y, some h, some mi =>
      match mkTimestamp a b y h mi with
      | some t => some t
      | none => mkTimestamp b a y h mi
    | _, _, _, _, _ => none
  | _, _ => none

/-- Model of LINE_RE.match on a (stripped) line, for the anchored pattern
(backslashes written double in the Python source string):
d{1,2}[.]d{1,2}[.]d{4} s+ d{1,2}:d{2} s+ - s ([^:]+) : s (.*)
returning the four captured groups (date, time, author, body). Each
quantifier is resolved as the regex engine does: the bounded digit runs and
the whitespace runs are maximal munches whose required successor character
makes backtracking irrelevant. -/
def matchLine (cs : List Char) : Option (String × String × String × String) :=
  let p1 := cs.span Char.isDigit
  if p1.1.length = 0 ∨ 2 < p1.1.length then none else
  match p1.2 with
  | '.' :: r2 =>
    let p2 := r2.span Char.isDigit
    if p2.1.length = 0 ∨ 2 < p2.1.length then none else
    match p2.2 with
    | '.' :: r4 =>
      let p3 := r4.span Char.isDigit
      if p3.1.length ≠ 4 then none else
      let w1 := p3.2.span isWs
      if w1.1.length = 0 then none else
      let p4 := w1.2.span Char.isDigit
      if p4.1.length = 0 ∨ 2 < p4.1.length then none else
      match p4.2 with
      | ':' :: r8 =>
        let p5 := r8.span Char.isDigit
        if p5.1.length ≠ 2 then none else
        let w2 := p5.2.span isWs
        if w2.1.length = 0 then none else
        match w2.2 with
        | '-' :: c :: r12 =>
          if !isWs c then none else
          let pa := r12.span (fun ch => ch != ':')
          if pa.1.length = 0 then none else
          match pa.2 with
          | ':' :: c2 :: rest =>
            if !isWs c2 then none else
            some (String.mk (p1.1 ++ '.' :: (p2.1 ++ '.' :: p3.1)),
                  String.mk (p4.1 ++ ':' :: p5.1),
                  String.mk pa.1,
                  String.mk rest)
          | _ => none
        | _ => none
      | _ => none
    | _ => none
  | _ => none

/-- One parsed chat message: a row of the DataFrame built by parse_chat. -/
structure Msg where
  dt : Int
  author : String
  text : String
  emojis : List String
deriving DecidableEq

instance : Inhabited Msg := ⟨⟨0, "", "", []⟩⟩

/-- Processing of one input line inside parse_chat's loop. The row accumulator
is kept in reverse order, so rows[-1] is its head. A matched line whose
date/time pair fails both the strict parse and the fallback fb is the raised
exception, modelled as Except.error carrying the offending tokens; a
non-matching line is folded into the newest row (or dropped when none
exists). The emojis field is computed by ex from the raw body group. -/
def lineStep (fb : String → String → Option Int) (ex : String → List String)
    (acc : List Msg) (line : String) : Except (String × String) (List Msg) :=
  match matchLine (trimChars line.toList) with
  | none =>
    match acc with
    | [] => .ok []
    | r :: rs => .ok (⟨r.dt, r.author, r.text ++ " " ++ trimStr line, r.emojis⟩ :: rs)
  | some (d, t, a, b) =>
    match strictParse d t with
    | some dt => .ok (⟨dt, trimStr a, trimStr b, ex b⟩ :: acc)
    | none =>
      match fb d t with
      | some dt => .ok (⟨dt, trimStr a, trimStr b, ex b⟩ :: acc)
      | none => .error (d, t)

/-- The line loop of parse_chat: left fold of lineStep that stops at the first
raised timestamp error. -/
def parseLinesAux (fb : String → String → Option Int) (ex : String → List String) :
    List String → List Msg → Except (String × String) (List Msg)
  | [], acc => .ok acc
  | l :: ls, acc =>
    match lineStep fb ex acc l with
    | .ok acc2 => parseLinesAux fb ex ls acc2
    | .error e => .error e

/-- Insert a row into a dt-sorted list, before the first strictly later row. -/
def insertRow (r : Msg) : List Msg → List Msg
  | [] => [r]
  | x :: xs => if r.dt ≤ x.dt then r :: x :: xs else x :: insertRow r xs

/-- Model of df.sort_values("dt"): the rows reordered so dt ascends. pandas'
default sort kind (quicksort) promises only sortedness, not any tie order;
this model realizes the sorted-output contract with an insertion sort. -/
def sortRows : List Msg → List Msg
  | [] => []
  | x :: xs => insertRow x (sortRows xs)

/-- Model of parse_chat: fold the lines, then sort the collected rows by dt. -/
def parse_chat (fb : String → String → Option Int) (ex : String → List String)
    (lines : List String) : Except (String × String) (List Msg) :=
  match parseLinesAux fb ex lines [] with
  | .ok acc => .ok (sortRows acc.reverse)
  | .error e => .error e

/-- The per-message closing-phrase test of get_conversation_ends:
any(ep.strip().lower() in msg for ep in end_phrases if ep.strip())
with msg = text.lower(). -/
def isEndMsg (phrases : List String) (text : String) : Bool :=
  phrases.any fun ep =>
    !(trimStr ep == "") && containsSub (strLower text) (strLower (trimStr ep))

/-- The walk of get_conversation_ends from position i with the
previous-timestamp accumulator holding prevTime: collects the
conversation-closing indices and, for each closer that is not the last
message, the author of the next message. -/
def segLoop (phrases : List String) : List Msg → Nat → Int → List Int × List String
  | [], _, _ => ([], [])
  | m :: rest, i, prevTime =>
    let close := isEndMsg phrases m.text || decide (m.dt - prevTime > 21600)
    let p := segLoop phrases rest (i + 1) m.dt
    if close then
      ((i : Int) :: p.1,
        match rest with
        | [] => p.2
        | m2 :: _ => m2.author :: p.2)
    else p

/-- Model of get_conversation_ends. On an empty frame df.iloc[0] raises
IndexError, modelled as none. Otherwise the boundary list starts with the
synthetic -1 entry, and when no boundary recorded a starter the first
message's author becomes the sole starter. -/
def get_conversation_ends (df : List Msg) (phrases : List String) :
    Option (List Int × List String) :=
  match df with
  | [] => none
  | m0 :: _ =>
    let p := segLoop phrases df 0 m0.dt
    some ((-1) :: p.1, if p.2 = [] then [m0.author] else p.2)

/-- Closing condition of the message at position k of df during the
segmenter's walk, when the previous-timestamp accumulator held prev before
position 0 was visited: phrase match, or a gap over 6 hours (21600 s) to the
previous message (to prev for the first message). -/
def closeAux (prev : Int) (df : List Msg) (phrases : List String) (k : Nat) : Bool :=
  isEndMsg phrases (df.getD k default).text ||
    decide ((df.getD k default).dt -
      (if k = 0 then prev else (df.getD (k - 1) default).dt) > 21600)

/-- The three reply-latency bands of classify_response_times; the None label
of boundary rows is Option.none around this type. -/
inductive Band where
  | early
  | nearEarly
  | late
deriving DecidableEq

/-- The row Python's df.iloc[i-1] denotes: i-1 for positive i, but the LAST
row for i = 0 (negative indexing). -/
def prevIdx (df : List Msg) (i : Nat) : Nat :=
  if i = 0 then df.length - 1 else i - 1

/-- Thresholding of td.total_seconds() into the three bands. -/
def bandOfTd (td : Int) : Band :=
  if td < 60 then Band.early else if td < 300 then Band.nearEarly else Band.late

/-- The label computed for index i by classify_response_times: none when i is
in split_idx, otherwise the thresholded delta to df.iloc[i-1] — which for
i = 0 is df.iloc[-1], the LAST row (Python negative indexing). -/
def classifyStep (df : List Msg) (split : List Int) (i : Nat) : Option Band :=
  if (i : Int) ∈ split then none
  else some (bandOfTd ((df.getD i default).dt - (df.getD (prevIdx df i) default).dt))

/-- Model of classify_response_times: one label per row, in index order. -/
def classify_response_times (df : List Msg) (split : List Int) : List (Option Band) :=
  (List.range df.length).map (classifyStep df split)

/-- Error conditions of the main analysis flow. -/
inductive AppError where
  | unparseable (d t : String)
  | noValidMessages
  | frameError
deriving DecidableEq

/-- Model of the main app flow over one uploaded transcript: parse, stop with
the distinct "No valid messages found" report when the frame is empty
(st.error + st.stop), otherwise segment and classify. -/
def analyze_chat (fb : String → String → Option Int) (ex : String → List String)
    (lines : List String) (phrases : List String) :
    Except AppError (List Msg × List Int × List String × List (Option Band)) :=
  match parse_chat fb ex lines with
  | .error e => .error (.unparseable e.1 e.2)
  | .ok df =>
    if df.isEmpty then .error .noValidMessages
    else
      match get_conversation_ends df phrases with
      | none => .error .frameError
      | some p => .ok (df, p.1, p.2, classify_response_times df p.1)

/-- First-occurrence deduplication keeping original order. -/
def dedupAux (seen : List Char) : List Char → List Char
  | [] => []
  | c :: cs => if seen.contains c then dedupAux seen cs else c :: dedupAux (c :: seen) cs

/-- Modelled from the spec: the external emoji-detection collaborator (the
emoji library, outside src/) provides "given text, return ordered distinct
emoji tokens". Concrete instance over a two-emoji alphabet, used to
instantiate the extractor parameter of parse_chat in witnesses. -/
def demoExtract (s : String) : List String :=
  (dedupAux [] (s.toList.filter fun c => c == '😀' || c == '😂')).map
    fun c => String.mk [c]

/-- Boolean test that a row list ascends in dt. -/
def sortedByDt : List Msg → Bool
  | [] => true
  | [_] => true
  | a :: b :: t => decide (a.dt ≤ b.dt) && sortedByDt (b :: t)

/-- The boundary index contributed by position k of the segmenter's walk
started at index i0, if any. -/
def endsFun (prev : Int) (l : List Msg) (phrases : List String) (i0 k : Nat) : Option Int :=
  if closeAux prev l phrases k then some ((i0 + k : Nat) : Int) else none

/-- The starter author contributed by position k of the segmenter's walk,
if any: the author of the next message when k closes and is not last. -/
def startersFun (prev : Int) (l : List Msg) (phrases : List String) (k : Nat) : Option String :=
  if closeAux prev l phrases k && decide (k + 1 < l.length) then
    some ((l.getD (k + 1) default).author)
  else none

/-
Lemmas and claim theorems.
-/

theorem closeAux_zero (prev : Int) (m : Msg) (rest : List Msg) (phrases : List String) :
    closeAux prev (m :: rest) phrases 0 =
      (isEndMsg phrases m.text || decide (m.dt - prev > 21600)) := by
  simp [closeAux]

theorem closeAux_succ (prev : Int) (m : Msg) (rest : List Msg) (phrases : List String)
    (k : Nat) : closeAux prev (m :: rest) phrases (k + 1) = closeAux m.dt rest phrases k := by
  cases k with
  | zero => simp [closeAux]
  | succ j => simp [closeAux]

theorem segLoop_eq (phrases : List String) (l : List Msg) : ∀ (i0 : Nat) (prev : Int),
    segLoop phrases l i0 prev =
      ((List.range l.length).filterMap (endsFun prev l phrases i0),
       (List.range l.length).filterMap (startersFun prev l phrases)) := by
  induction l with
  | nil =>
    intro i0 prev
    simp [segLoop]
  | cons m rest ih =>
    intro i0 prev
    have hrange : List.range (rest.length + 1) = 0 :: (List.range rest.length).map Nat.succ :=
      List.range_succ_eq_map rest.length
    have hendsf : ∀ k, endsFun prev (m :: rest) phrases i0 (Nat.succ k) =
        endsFun m.dt rest phrases (i0 + 1) k := by
      intro k
      have h1 : i0 + (k + 1) = (i0 + 1) + k := by omega
      simp only [endsFun, Nat.succ_eq_add_one, closeAux_succ, h1]
    have hstartf : ∀ k, startersFun prev (m :: rest) phrases (Nat.succ k) =
        startersFun m.dt rest phrases k := by
      intro k
      have h2 : ((m :: rest).getD (k + 1 + 1) default) = rest.getD (k + 1) default := rfl
      have h3 : (decide (k + 1 + 1 < (m :: rest).length)) = decide (k + 1 < rest.length) := by
        simp
      simp only [startersFun, Nat.succ_eq_add_one, closeAux_succ, h2, h3]
    rw [segLoop.eq_def]
    simp only []
    rw [ih (i0 + 1) m.dt]
    simp only [List.length_cons, hrange, List.filterMap_cons, List.filterMap_map]
    have hce : (endsFun prev (m :: rest) phrases i0 ∘ Nat.succ) =
        endsFun m.dt rest phrases (i0 + 1) := funext fun k => hendsf k
    have hcs : (startersFun prev (m :: rest) phrases ∘ Nat.succ) =
        startersFun m.dt rest phrases := funext fun k => hstartf k
    rw [hce, hcs]
    by_cases hc : (isEndMsg phrases m.text || decide (m.dt - prev > 21600)) = true
    · have he0 : endsFun prev (m :: rest) phrases i0 0 = some (i0 : Int) := by
        simp [endsFun, closeAux_zero, hc]
      cases rest with
      | nil =>
        have hs0 : startersFun prev [m] phrases 0 = none := by
          simp [startersFun]
        simp [hc, he0, hs0]
      | cons m2 rest2 =>
        have hs0 : startersFun prev (m :: m2 :: rest2) phrases 0 = some m2.author := by
          simp [startersFun, closeAux_zero, hc]
        simp [hc, he0, hs0]
    · have he0 : endsFun prev (m :: rest) phrases i0 0 = none := by
        simp [endsFun, closeAux_zero, hc]
      have hs0 : startersFun prev (m :: rest) phrases 0 = none := by
        simp [startersFun, closeAux_zero, hc]
      cases rest with
      | nil => simp [hc, he0, hs0]
      | cons m2 rest2 => simp [hc, he0, hs0]

theorem mem_segLoop_ends {phrases : List String} {l : List Msg} {i0 : Nat} {prev : Int}
    {x : Int} : x ∈ (segLoop phrases l i0 prev).1 ↔
      ∃ k, k < l.length ∧ closeAux prev l phrases k = true ∧ x = ((i0 + k : Nat) : Int) := by
  rw [segLoop_eq]
  simp only [List.mem_filterMap, List.mem_range, endsFun]
  constructor
  · rintro ⟨k, hk, hfk⟩
    by_cases hc : closeAux prev l phrases k = true
    · rw [if_pos hc] at hfk
      exact ⟨k, hk, hc, (Option.some.inj hfk).symm⟩
    · rw [if_neg hc] at hfk
      cases hfk
  · rintro ⟨k, hk, hc, rfl⟩
    exact ⟨k, hk, by rw [if_pos hc]⟩

theorem nodup_segLoop_ends (phrases : List String) (l : List Msg) (i0 : Nat) (prev : Int) :
    ((segLoop phrases l i0 prev).1).Nodup := by
  rw [segLoop_eq]
  apply List.Nodup.filterMap ?_ (List.nodup_range _)
  intro a a' b hb hb'
  simp only [endsFun, Option.mem_def] at hb hb'
  split at hb
  · split at hb'
    · have h1 := Option.some.inj hb
      have h2 := Option.some.inj hb'
      omega
    · cases hb'
  · cases hb

theorem segLoop_ends_nonneg {phrases : List String} {l : List Msg} {i0 : Nat} {prev : Int}
    {x : Int} (hx : x ∈ (segLoop phrases l i0 prev).1) : 0 ≤ x := by
  rcases mem_segLoop_ends.mp hx with ⟨k, _, _, rfl⟩
  exact Int.natCast_nonneg _

theorem mem_ends_iff (m0 : Msg) (rest : List Msg) (phrases : List String) (i : Nat) :
    ((i : Int) ∈ ((-1 : Int) :: (segLoop phrases (m0 :: rest) 0 m0.dt).1) ↔
      (i < (m0 :: rest).length ∧ closeAux m0.dt (m0 :: rest) phrases i = true)) := by
  rw [List.mem_cons]
  constructor
  · rintro (h | h)
    · omega
    · rcases mem_segLoop_ends.mp h with ⟨k, hk, hc, hik⟩
      have hki : i = k := by omega
      subst hki
      exact ⟨hk, hc⟩
  · rintro ⟨hk, hc⟩
    exact Or.inr (mem_segLoop_ends.mpr ⟨i, hk, hc, by simp⟩)

theorem closeAux_getD (m0 : Msg) (rest : List Msg) (phrases : List String) (i : Nat) :
    closeAux m0.dt (m0 :: rest) phrases i =
      (isEndMsg phrases (((m0 :: rest).getD i default).text) ||
        decide (((m0 :: rest).getD i default).dt -
          ((m0 :: rest).getD (i - 1) default).dt > 21600)) := by
  cases i with
  | zero => simp [closeAux]
  | succ j => simp [closeAux]

theorem isEndMsg_iff (phrases : List String) (text : String) :
    isEndMsg phrases text = true ↔
      ∃ p ∈ phrases, trimStr p ≠ "" ∧
        containsSub (strLower text) (strLower (trimStr p)) = true := by
  simp only [isEndMsg, List.any_eq_true, Bool.and_eq_true, Bool.not_eq_true',
    beq_eq_false_iff_ne, ne_eq]

theorem classify_getElem (df : List Msg) (split : List Int) (i : Nat) (h : i < df.length) :
    (classify_response_times df split)[i]? = some (classifyStep df split i) := by
  simp [classify_response_times, List.getElem?_map, List.getElem?_range, h]

theorem classifyStep_none_iff (df : List Msg) (split : List Int) (i : Nat) :
    classifyStep df split i = none ↔ (i : Int) ∈ split := by
  unfold classifyStep
  split
  · simp_all
  · simp_all

theorem mem_insertRow (a r : Msg) : ∀ l, a ∈ insertRow r l ↔ a = r ∨ a ∈ l := by
  intro l
  induction l with
  | nil => simp [insertRow]
  | cons x xs ih =>
    simp only [insertRow]
    split
    · simp [List.mem_cons]
    · simp only [List.mem_cons, ih]
      tauto

theorem mem_sortRows (a : Msg) : ∀ l, a ∈ sortRows l ↔ a ∈ l := by
  intro l
  induction l with
  | nil => simp [sortRows]
  | cons x xs ih => simp [sortRows, mem_insertRow, ih]

theorem sortedByDt_head_le : ∀ (l : List Msg) (m : Msg), sortedByDt (m :: l) = true →
    ∀ x ∈ l, m.dt ≤ x.dt := by
  intro l
  induction l with
  | nil =>
    intro m _ x hx
    cases hx
  | cons b t ih =>
    intro m h x hx
    have h1 : m.dt ≤ b.dt ∧ sortedByDt (b :: t) = true := by
      simpa [sortedByDt, Bool.and_eq_true] using h
    rcases List.mem_cons.mp hx with rfl | hx2
    · exact h1.1
    · exact le_trans h1.1 (ih b h1.2 x hx2)

theorem mem_segLoop_starters {phrases : List String} {l : List Msg} {i0 : Nat} {prev : Int}
    {k : Nat} (hc : closeAux prev l phrases k = true) (hk : k + 1 < l.length) :
    ((l.getD (k + 1) default).author) ∈ (segLoop phrases l i0 prev).2 := by
  rw [segLoop_eq]
  apply List.mem_filterMap.mpr
  refine ⟨k, List.mem_range.mpr (by omega), ?_⟩
  simp [startersFun, hc, hk]

theorem segLoop_starters_nil (phrases : List String) (l : List Msg) (i0 : Nat) (prev : Int)
    (h : ∀ k, k < l.length → closeAux prev l phrases k = true → k + 1 = l.length) :
    (segLoop phrases l i0 prev).2 = [] := by
  rw [segLoop_eq]
  apply List.filterMap_eq_nil_iff.mpr
  intro k hk
  have hk2 := List.mem_range.mp hk
  by_cases hc : closeAux prev l phrases k = true
  · have h3 := h k hk2 hc
    have h4 : ¬(k + 1 < l.length) := by omega
    simp [startersFun, hc, h4]
  · simp [startersFun, hc]

theorem lineStep_inv (fb : String → String → Option Int) (ex : String → List String)
    (acc : List Msg) (line : String) (acc2 : List Msg) (C : Msg → Prop)
    (hstep : lineStep fb ex acc line = .ok acc2)
    (hacc : ∀ r ∈ acc, C r)
    (hkeep : ∀ r : Msg, C r → ∀ s : String, C ⟨r.dt, r.author, r.text ++ " " ++ s, r.emojis⟩)
    (hnew : ∀ d t a b dt, matchLine (trimChars line.toList) = some (d, t, a, b) →
      C ⟨dt, trimStr a, trimStr b, ex b⟩) :
    ∀ r ∈ acc2, C r := by
  cases hm : matchLine (trimChars line.toList) with
  | none =>
    have hm2 : matchLine (trimChars line.data) = none := hm
    cases acc with
    | nil =>
      have hval : lineStep fb ex [] line = .ok [] := by
        simp [lineStep, hm2]
      rw [hval] at hstep
      have h2 : acc2 = [] := by
        cases hstep
        rfl
      subst h2
      intro r hr
      cases hr
    | cons r0 rs =>
      have hval : lineStep fb ex (r0 :: rs) line =
          .ok (⟨r0.dt, r0.author, r0.text ++ " " ++ trimStr line, r0.emojis⟩ :: rs) := by
        simp [lineStep, hm2]
      rw [hval] at hstep
      have h2 : acc2 = ⟨r0.dt, r0.author, r0.text ++ " " ++ trimStr line, r0.emojis⟩ :: rs := by
        cases hstep
        rfl
      subst h2
      intro r hr
      rcases List.mem_cons.mp hr with rfl | hr2
      · exact hkeep r0 (hacc r0 (List.mem_cons_self r0 rs)) (trimStr line)
      · exact hacc r (List.mem_cons_of_mem _ hr2)
  | some v =>
    obtain ⟨d, t, a, b⟩ := v
    have hm2 : matchLine (trimChars line.data) = some (d, t, a, b) := hm
    cases hp : strictParse d t with
    | some dt =>
      have hval : lineStep fb ex acc line = .ok (⟨dt, trimStr a, trimStr b, ex b⟩ :: acc) := by
        simp [lineStep, hm2, hp]
      rw [hval] at hstep
      have h2 : acc2 = ⟨dt, trimStr a, trimStr b, ex b⟩ :: acc := by
        cases hstep
        rfl
      subst h2
      intro r hr
      rcases List.mem_cons.mp hr with rfl | hr2
      · exact hnew d t a b dt hm
      · exact hacc r hr2
    | none =>
      cases hf : fb d t with
      | some dt =>
        have hval : lineStep fb ex acc line = .ok (⟨dt, trimStr a, trimStr b, ex b⟩ :: acc) := by
          simp [lineStep, hm2, hp, hf]
        rw [hval] at hstep
        have h2 : acc2 = ⟨dt, trimStr a, trimStr b, ex b⟩ :: acc := by
          cases hstep
          rfl
        subst h2
        intro r hr
        rcases List.mem_cons.mp hr with rfl | hr2
        · exact hnew d t a b dt hm
        · exact hacc r hr2
      | none =>
        have hval : lineStep fb ex acc line = .error (d, t) := by
          simp [lineStep, hm2, hp, hf]
        rw [hval] at hstep
        cases hstep

theorem parseAux_inv (fb : String → String → Option Int) (ex : String → List String)
    (C : Msg → Prop)
    (hkeep : ∀ r : Msg, C r → ∀ s : String, C ⟨r.dt, r.author, r.text ++ " " ++ s, r.emojis⟩) :
    ∀ (ls : List String) (acc out : List Msg),
      (∀ l ∈ ls, ∀ d t a b dt, matchLine (trimChars l.toList) = some (d, t, a, b) →
        C ⟨dt, trimStr a, trimStr b, ex b⟩) →
      (∀ r ∈ acc, C r) →
      parseLinesAux fb ex ls acc = .ok out → ∀ r ∈ out, C r := by
  intro ls
  induction ls with
  | nil =>
    intro acc out _ hacc hrun
    have h2 : out = acc := by
      cases hrun
      rfl
    subst h2
    exact hacc
  | cons l ls ih =>
    intro acc out hnew hacc hrun
    unfold parseLinesAux at hrun
    cases hstep : lineStep fb ex acc l with
    | error e =>
      rw [hstep] at hrun
      cases hrun
    | ok acc2 =>
      rw [hstep] at hrun
      refine ih acc2 out (fun l2 hl2 => hnew l2 (List.mem_cons_of_mem _ hl2)) ?_ hrun
      exact lineStep_inv fb ex acc l acc2 C hstep hacc hkeep
        (fun d t a b dt hm => hnew l (List.mem_cons_self _ _) d t a b dt hm)

theorem sorted_insertRow (r : Msg) : ∀ l, sortedByDt l = true →
    sortedByDt (insertRow r l) = true := by
  intro l
  induction l with
  | nil =>
    intro _
    rfl
  | cons x xs ih =>
    intro h
    simp only [insertRow]
    by_cases hc : r.dt ≤ x.dt
    · rw [if_pos hc]
      simp only [sortedByDt, Bool.and_eq_true]
      exact ⟨by simpa using hc, h⟩
    · rw [if_neg hc]
      have hxr : x.dt ≤ r.dt := by omega
      cases xs with
      | nil =>
        simp [insertRow, sortedByDt, hxr]
      | cons y ys =>
        have h1 : x.dt ≤ y.dt ∧ sortedByDt (y :: ys) = true := by
          simpa [sortedByDt, Bool.and_eq_true] using h
        have h2 : sortedByDt (insertRow r (y :: ys)) = true := ih h1.2
        simp only [insertRow] at h2 ⊢
        by_cases hc2 : r.dt ≤ y.dt
        · rw [if_pos hc2] at h2 ⊢
          simp only [sortedByDt, Bool.and_eq_true] at h2 ⊢
          exact ⟨by simpa using hxr, h2⟩
        · rw [if_neg hc2] at h2 ⊢
          simp only [sortedByDt, Bool.and_eq_true] at h2 ⊢
          exact ⟨by simpa using h1.1, h2⟩

theorem sorted_sortRows : ∀ l, sortedByDt (sortRows l) = true := by
  intro l
  induction l with
  | nil => rfl
  | cons x xs ih => exact sorted_insertRow x (sortRows xs) ih

/-- Sortedness half of the pipeline ordering invariant: any successfully
parsed transcript comes out ascending in dt. (The stability half of the
spec's sort claim depends on pandas' default quicksort, which guarantees no
tie order, and is not decided by this model.) -/
theorem parse_chat_sorted (fb : String → String → Option Int) (ex : String → List String)
    (lines : List String) (out : List Msg)
    (h : parse_chat fb ex lines = .ok out) : sortedByDt out = true := by
  unfold parse_chat at h
  cases hrun : parseLinesAux fb ex lines [] with
  | ok acc =>
    rw [hrun] at h
    have h2 : out = sortRows acc.reverse := by
      cases h
      rfl
    subst h2
    exact sorted_sortRows _
  | error e =>
    rw [hrun] at h
    cases h

theorem getD_mem_of_lt : ∀ (l : List Msg) (i : Nat), i < l.length → l.getD i default ∈ l := by
  intro l
  induction l with
  | nil =>
    intro i h
    simp at h
  | cons x xs ih =>
    intro i h
    cases i with
    | zero => simp
    | succ j =>
      rw [List.getD_cons_succ]
      exact List.mem_cons_of_mem _ (ih j (by simp at h; omega))

/-- C3: a message index is recorded as a conversation-closing boundary iff its
lower-cased body contains some closing phrase that is non-empty after
trimming, or the gap to the previous message's timestamp exceeds 6 hours
(for index 0 the code compares the message with its own timestamp, so only
the phrase rule can fire there); and the index is recorded at most once even
when both rules fire. -/
theorem c3_boundary_iff (df : List Msg) (phrases : List String) (ends : List Int)
    (starters : List String)
    (hE : get_conversation_ends df phrases = some (ends, starters))
    (i : Nat) (h : i < df.length) :
    ((i : Int) ∈ ends ↔
      ((∃ p ∈ phrases, trimStr p ≠ "" ∧
          containsSub (strLower ((df.getD i default).text)) (strLower (trimStr p)) = true)
        ∨ (df.getD i default).dt - (df.getD (i - 1) default).dt > 21600))
    ∧ ends.count (i : Int) ≤ 1 := by
  cases df with
  | nil => cases hE
  | cons m0 rest =>
    simp only [get_conversation_ends] at hE
    rw [Option.some.injEq, Prod.mk.injEq] at hE
    obtain ⟨hends, hstarters⟩ := hE
    subst hends
    constructor
    · have hiff : (i < (m0 :: rest).length ∧ closeAux m0.dt (m0 :: rest) phrases i = true) ↔
          closeAux m0.dt (m0 :: rest) phrases i = true := by
        constructor
        · exact And.right
        · intro hc
          exact ⟨h, hc⟩
      rw [mem_ends_iff, hiff, closeAux_getD, Bool.or_eq_true, isEndMsg_iff]
      simp only [decide_eq_true_eq]
    · have hnodup : ((-1 : Int) :: (segLoop phrases (m0 :: rest) 0 m0.dt).1).Nodup := by
        rw [List.nodup_cons]
        constructor
        · intro hmem
          have := segLoop_ends_nonneg hmem
          omega
        · exact nodup_segLoop_ends phrases (m0 :: rest) 0 m0.dt
      exact List.nodup_iff_count_le_one.mp hnodup _

/-- C4: whenever a boundary is recorded at message index i with i not last,
the author of message i+1 is in the starter list; and when no recorded
boundary has a following message, the starter list is exactly the singleton
of the first message's author. -/
theorem c4_starters (df : List Msg) (phrases : List String) (ends : List Int)
    (starters : List String)
    (hE : get_conversation_ends df phrases = some (ends, starters)) :
    (∀ i : Nat, (i : Int) ∈ ends → i + 1 < df.length →
      ((df.getD (i + 1) default).author) ∈ starters)
    ∧ ((∀ i : Nat, (i : Int) ∈ ends → i + 1 = df.length) →
      starters = [(df.getD 0 default).author]) := by
  cases df with
  | nil => cases hE
  | cons m0 rest =>
    simp only [get_conversation_ends] at hE
    rw [Option.some.injEq, Prod.mk.injEq] at hE
    obtain ⟨hends, hstarters⟩ := hE
    constructor
    · intro i hi hlt
      have hc : closeAux m0.dt (m0 :: rest) phrases i = true := by
        rw [← hends] at hi
        exact ((mem_ends_iff m0 rest phrases i).mp hi).2
      have hmem := @mem_segLoop_starters phrases (m0 :: rest) 0 m0.dt i hc hlt
      have hne : (segLoop phrases (m0 :: rest) 0 m0.dt).2 ≠ [] :=
        List.ne_nil_of_mem hmem
      rw [if_neg hne] at hstarters
      rw [← hstarters]
      exact hmem
    · intro hnone
      have hnil : (segLoop phrases (m0 :: rest) 0 m0.dt).2 = [] := by
        apply segLoop_starters_nil
        intro k hk hc
        apply hnone k
        rw [← hends]
        exact (mem_ends_iff m0 rest phrases k).mpr ⟨hk, hc⟩
      rw [hnil, if_pos rfl] at hstarters
      rw [← hstarters]
      rfl

/-- C10: the previous-timestamp accumulator starts at the first message's own
timestamp, so the first message's gap test compares it with itself and index
0 is recorded as a boundary exactly when a closing phrase matches. -/
theorem c10_first_message (m0 : Msg) (rest : List Msg) (phrases : List String) :
    closeAux m0.dt (m0 :: rest) phrases 0 = isEndMsg phrases m0.text
    ∧ ((0 : Int) ∈ ((get_conversation_ends (m0 :: rest) phrases).getD ([], [])).1 ↔
        isEndMsg phrases m0.text = true) := by
  have h1 : closeAux m0.dt (m0 :: rest) phrases 0 = isEndMsg phrases m0.text := by
    rw [closeAux_zero]
    simp
  refine ⟨h1, ?_⟩
  have h2 := mem_ends_iff m0 rest phrases 0
  rw [h1] at h2
  simp only [Nat.cast_zero] at h2
  simp only [get_conversation_ends, Option.getD_some]
  rw [h2]
  simp

/-- C1 as stated is false on the code: with closing phrase "bye", the recorded
boundary list is [-1, 1]; the classifier then labels message 0 — the opening
message of the conversation and the first message of the sequence — Early
(its delta is taken against the LAST row via Python's df.iloc[-1]), while
message 1, which closes the conversation and does not open one, gets None. -/
theorem c1_counterexample :
    get_conversation_ends [⟨0, "A", "hi", []⟩, ⟨60, "B", "bye", []⟩] ["bye"]
        = some ([-1, 1], ["A"])
    ∧ classify_response_times [⟨0, "A", "hi", []⟩, ⟨60, "B", "bye", []⟩] [-1, 1]
        = [some Band.early, none] :=
  ⟨rfl, rfl⟩

/-- C1 amended: the classifier assigns None exactly to the indices recorded in
the boundary list (the conversation-CLOSING indices, plus the synthetic -1
which matches no message); the first message of a sorted sequence gets None
only when it is itself recorded, and otherwise gets Early, because its delta
is taken against the last row (df.iloc[-1]) and is therefore nonpositive. -/
theorem c1_amended (df : List Msg) (phrases : List String) (ends : List Int)
    (starters : List String)
    (hE : get_conversation_ends df phrases = some (ends, starters)) :
    (∀ i : Nat, i < df.length →
      ((classify_response_times df ends)[i]? = some none ↔ (i : Int) ∈ ends))
    ∧ (sortedByDt df = true → (0 : Int) ∉ ends → 0 < df.length →
        (classify_response_times df ends)[0]? = some (some Band.early)) := by
  constructor
  · intro i hi
    rw [classify_getElem df ends i hi]
    simp only [Option.some.injEq]
    exact classifyStep_none_iff df ends i
  · intro hs h0 hlen
    rw [classify_getElem df ends 0 hlen]
    have h0b : ¬(((0 : Nat) : Int) ∈ ends) := by simpa using h0
    have htd : (df.getD 0 default).dt - (df.getD (df.length - 1) default).dt ≤ 0 := by
      cases df with
      | nil => simp at hlen
      | cons m0 rest =>
        cases rest with
        | nil => simp
        | cons m1 rest2 =>
          have hlen2 : (m0 :: m1 :: rest2).length - 1 = rest2.length + 1 := by simp
          rw [hlen2, List.getD_cons_zero, List.getD_cons_succ]
          have hmem : (m1 :: rest2).getD rest2.length default ∈ (m1 :: rest2) :=
            getD_mem_of_lt (m1 :: rest2) rest2.length (by simp)
          have hle := sortedByDt_head_le (m1 :: rest2) m0 hs _ hmem
          omega
    have h60 : (df.getD 0 default).dt - (df.getD (df.length - 1) default).dt < 60 := by
      omega
    have hprev : prevIdx df 0 = df.length - 1 := rfl
    unfold classifyStep
    rw [if_neg h0b, hprev]
    have hband : bandOfTd ((df.getD 0 default).dt - (df.getD (df.length - 1) default).dt) =
        Band.early := by
      unfold bandOfTd
      rw [if_pos h60]
    rw [hband]

/-- C2 as stated is false on the code: the band of a message at index 0 that
is not in the boundary set is not determined by any previous-message delta.
Both inputs below share the identical first message (and neither has a
message before it), yet one run labels it Late and the other Early: the code
compares index 0 against the LAST row (df.iloc[-1]). -/
theorem c2_counterexample :
    classify_response_times [⟨100000, "A", "x", []⟩, ⟨0, "B", "y", []⟩] []
        = [some Band.late, some Band.early]
    ∧ classify_response_times [⟨100000, "A", "x", []⟩] [] = [some Band.early] :=
  ⟨rfl, rfl⟩

/-- C2 amended: for every message at a POSITIVE index i not in the boundary
set, the band is the thresholded delta to message i-1 in raw sequence order
(Early below 60 s, NearEarly from 60 s up to 300 s, Late from 300 s); a
message at index 0 that is not in the boundary set is instead compared
against the final message of the sequence (Python negative indexing). -/
theorem c2_amended (df : List Msg) (split : List Int) :
    (∀ i : Nat, 0 < i → i < df.length → (((i : Nat) : Int) ∉ split) →
      (classify_response_times df split)[i]? =
        some (some (if (df.getD i default).dt - (df.getD (i - 1) default).dt < 60 then Band.early
          else if (df.getD i default).dt - (df.getD (i - 1) default).dt < 300 then Band.nearEarly
          else Band.late)))
    ∧ (0 < df.length → ((0 : Int) ∉ split) →
      (classify_response_times df split)[0]? =
        some (some (if (df.getD 0 default).dt - (df.getD (df.length - 1) default).dt < 60 then Band.early
          else if (df.getD 0 default).dt - (df.getD (df.length - 1) default).dt < 300 then Band.nearEarly
          else Band.late))) := by
  constructor
  · intro i h0 hi hs
    rw [classify_getElem df split i hi]
    have hne : ¬(i = 0) := by omega
    have hprev : prevIdx df i = i - 1 := by
      unfold prevIdx
      rw [if_neg hne]
    unfold classifyStep
    rw [if_neg hs, hprev]
    unfold bandOfTd
    rfl
  · intro hlen hs
    rw [classify_getElem df split 0 hlen]
    have hsb : ¬(((0 : Nat) : Int) ∈ split) := by simpa using hs
    have hprev : prevIdx df 0 = df.length - 1 := rfl
    unfold classifyStep
    rw [if_neg hsb, hprev]
    unfold bandOfTd
    rfl

/-- Witness for c1_amended at a concrete segmented transcript. -/
theorem c1_witness :
    ((classify_response_times [⟨0, "A", "hi", []⟩, ⟨60, "B", "bye", []⟩] [-1, 1])[0]? =
      some (some Band.early))
    ∧ ((classify_response_times [⟨0, "A", "hi", []⟩, ⟨60, "B", "bye", []⟩] [-1, 1])[1]? =
        some none ↔ ((1 : Nat) : Int) ∈ ([-1, 1] : List Int)) := by
  have h := c1_amended [⟨0, "A", "hi", []⟩, ⟨60, "B", "bye", []⟩] ["bye"] [-1, 1] ["A"] rfl
  exact ⟨h.2 rfl (by decide) (by decide), h.1 1 (by decide)⟩

/-- Witness for c2_amended at concrete indices 1 and 0. -/
theorem c2_witness :
    ((classify_response_times [⟨0, "A", "p", []⟩, ⟨400, "B", "q", []⟩] [-1])[1]? =
      some (some Band.late))
    ∧ ((classify_response_times [⟨0, "A", "p", []⟩, ⟨400, "B", "q", []⟩] [-1])[0]? =
        some (some Band.early)) := by
  have h := c2_amended [⟨0, "A", "p", []⟩, ⟨400, "B", "q", []⟩] [-1]
  constructor
  · exact (h.1 1 (by decide) (by decide) (by decide)).trans (by decide)
  · exact (h.2 (by decide) (by decide)).trans (by decide)

/-- C5: a trimmed line that does not match the message pattern is appended to
the newest extracted message's body with a single separating space; with no
message yet it is silently dropped; and the two-line example yields exactly
one message with body "hello world". -/
theorem c5_continuation (fb : String → String → Option Int) (ex : String → List String)
    (line : String) (r : Msg) (rs : List Msg)
    (hm : matchLine (trimChars line.toList) = none) :
    lineStep fb ex (r :: rs) line =
      .ok (⟨r.dt, r.author, r.text ++ " " ++ trimStr line, r.emojis⟩ :: rs)
    ∧ lineStep fb ex [] line = .ok []
    ∧ parse_chat fb ex ["1.1.2024 10:00 - A: hello", "world"] =
      .ok [⟨tsOf 2024 1 1 10 0, "A", "hello world", ex "hello"⟩] := by
  have hm2 : matchLine (trimChars line.data) = none := hm
  refine ⟨?_, ?_, ?_⟩
  · simp [lineStep, hm2]
  · simp [lineStep, hm2]
  · rfl

/-- Witness for c5_continuation: the non-matching line "world" appended to a
one-row accumulator, dropped on an empty one, and the example end-to-end. -/
theorem c5_witness :
    lineStep fallbackParse demoExtract [⟨0, "A", "x", []⟩] "world" =
      .ok [⟨0, "A", "x world", []⟩]
    ∧ lineStep fallbackParse demoExtract [] "world" = .ok []
    ∧ parse_chat fallbackParse demoExtract ["1.1.2024 10:00 - A: hello", "world"] =
      .ok [⟨tsOf 2024 1 1 10 0, "A", "hello world", demoExtract "hello"⟩] :=
  c5_continuation fallbackParse demoExtract "world" ⟨0, "A", "x", []⟩ [] rfl

/-- C7: a matched message line whose date/time tokens fail the strict parse
and any fallback makes the parser raise immediately on that record — the
remaining lines are not processed, the error carries the offending tokens,
and the message is neither coerced nor dropped. -/
theorem c7_unparseable (fb : String → String → Option Int) (ex : String → List String)
    (acc : List Msg) (line : String) (rest : List String) (d t a b : String)
    (hm : matchLine (trimChars line.toList) = some (d, t, a, b))
    (hs : strictParse d t = none) (hf : fb d t = none) :
    parseLinesAux fb ex (line :: rest) acc = .error (d, t)
    ∧ parse_chat fb ex (line :: rest) = .error (d, t) := by
  have hm2 : matchLine (trimChars line.data) = some (d, t, a, b) := hm
  have hval : lineStep fb ex acc line = .error (d, t) := by
    simp [lineStep, hm2, hs, hf]
  have hval0 : lineStep fb ex [] line = .error (d, t) := by
    simp [lineStep, hm2, hs, hf]
  constructor
  · simp [parseLinesAux, hval]
  · simp [parse_chat, parseLinesAux, hval0]

/-- Witness for c7_unparseable: 31 February fails the strict parse and the
day-first fallback model, so parsing one such line errors with its tokens. -/
theorem c7_witness :
    parse_chat fallbackParse demoExtract ["31.2.2024 10:00 - A: hi"] =
      .error ("31.2.2024", "10:00") :=
  (c7_unparseable fallbackParse demoExtract [] "31.2.2024 10:00 - A: hi" []
    "31.2.2024" "10:00" "A" "hi" rfl rfl rfl).2

/-- C8 as stated is false on the code: the empty input does parse to the
empty sequence, but the segmenter — a downstream stage — does NOT accept it:
get_conversation_ends evaluates df.iloc[0] first, which raises IndexError on
an empty frame (modelled as none). -/
theorem c8_counterexample :
    parse_chat fallbackParse demoExtract [] = .ok []
    ∧ get_conversation_ends [] ["bye"] = none :=
  ⟨rfl, rfl⟩

/-- C8 amended: an empty input (or one with no matching line) parses to the
empty sequence without error, and the app reports that as the distinct
no-valid-messages condition and halts before segmentation; the classifier
does accept an empty sequence, but the segmenter raises on one (the app's
emptiness guard keeps it from ever seeing that input). -/
theorem c8_amended (fb : String → String → Option Int) (ex : String → List String)
    (phrases : List String) (split : List Int) :
    parse_chat fb ex [] = .ok []
    ∧ parse_chat fb ex ["not a message line"] = .ok []
    ∧ analyze_chat fb ex [] phrases = .error AppError.noValidMessages
    ∧ classify_response_times [] split = []
    ∧ get_conversation_ends [] phrases = none :=
  ⟨rfl, rfl, rfl, rfl, rfl⟩

/-- C9 as stated is false on the code: the emojis field is computed from the
body of the matched line at extraction time, so an emoji arriving on a
continuation line is in the final body but not in the emojis field. -/
theorem c9_counterexample :
    parse_chat fallbackParse demoExtract ["1.1.2024 10:00 - A: hello", "😀"] =
      .ok [⟨tsOf 2024 1 1 10 0, "A", "hello 😀", []⟩]
    ∧ demoExtract "hello 😀" = ["😀"] :=
  ⟨rfl, rfl⟩

/-- C9 amended: every parsed message's emojis field is the extractor applied
to the raw body group of the matched line that created the message — not to
the final body, which may have grown by continuation lines. -/
theorem c9_amended (fb : String → String → Option Int) (ex : String → List String)
    (lines : List String) (out : List Msg)
    (h : parse_chat fb ex lines = .ok out) :
    ∀ r ∈ out, ∃ l ∈ lines, ∃ d t a b, matchLine (trimChars l.toList) = some (d, t, a, b)
      ∧ r.emojis = ex b := by
  unfold parse_chat at h
  cases hrun : parseLinesAux fb ex lines [] with
  | error e =>
    rw [hrun] at h
    cases h
  | ok acc =>
    rw [hrun] at h
    have h2 : out = sortRows acc.reverse := by
      cases h
      rfl
    subst h2
    intro r hr
    have hr2 : r ∈ acc := by
      rw [mem_sortRows] at hr
      exact List.mem_reverse.mp hr
    refine parseAux_inv fb ex
      (fun m => ∃ l ∈ lines, ∃ d t a b,
        matchLine (trimChars l.toList) = some (d, t, a, b) ∧ m.emojis = ex b)
      ?_ lines [] acc ?_ ?_ hrun r hr2
    · intro m hm s
      exact hm
    · intro l hl d t a b dt hmr
      exact ⟨l, hl, d, t, a, b, hmr, rfl⟩
    · intro r0 hr0
      cases hr0

/-- Witness for c9_amended: the single parsed message's emojis field equals
the extractor applied to the matched raw body group. -/
theorem c9_witness :
    ∃ l ∈ (["1.1.2024 10:00 - A: hi😀"] : List String), ∃ d t a b,
      matchLine (trimChars l.toList) = some (d, t, a, b)
      ∧ (Msg.mk (tsOf 2024 1 1 10 0) "A" "hi😀" ["😀"]).emojis = demoExtract b :=
  c9_amended fallbackParse demoExtract ["1.1.2024 10:00 - A: hi😀"]
    [⟨tsOf 2024 1 1 10 0, "A", "hi😀", ["😀"]⟩] rfl
    ⟨tsOf 2024 1 1 10 0, "A", "hi😀", ["😀"]⟩ (List.mem_singleton.mpr rfl)

/-- Witness for c3_boundary_iff: the phrase "bye" closes the conversation at
index 1 of a concrete two-message transcript, recorded exactly once. -/
theorem c3_witness :
    (((1 : Nat) : Int) ∈ ([-1, 1] : List Int) ↔
      ((∃ p ∈ (["bye"] : List String), trimStr p ≠ "" ∧
          containsSub
            (strLower ((([⟨0, "A", "hi", []⟩, ⟨60, "B", "bye", []⟩] : List Msg).getD 1 default).text))
            (strLower (trimStr p)) = true)
        ∨ (([⟨0, "A", "hi", []⟩, ⟨60, "B", "bye", []⟩] : List Msg).getD 1 default).dt -
            (([⟨0, "A", "hi", []⟩, ⟨60, "B", "bye", []⟩] : List Msg).getD 0 default).dt > 21600))
    ∧ ([-1, 1] : List Int).count ((1 : Nat) : Int) ≤ 1 :=
  c3_boundary_iff [⟨0, "A", "hi", []⟩, ⟨60, "B", "bye", []⟩] ["bye"] [-1, 1] ["A"]
    rfl 1 (by decide)

/-- Witness for c4_starters: the boundary at index 0 of a three-message
transcript records the second author as starter, and a single-message
transcript whose only boundary is its last index falls back to the first
author as sole starter. -/
theorem c4_witness :
    ((([⟨0, "A", "hi bye", []⟩, ⟨60, "B", "yo", []⟩, ⟨120, "C", "hm", []⟩] : List Msg).getD
        (0 + 1) default).author ∈ (["B"] : List String))
    ∧ (["A"] : List String) = [(([⟨0, "A", "bye", []⟩] : List Msg).getD 0 default).author] := by
  constructor
  · exact (c4_starters [⟨0, "A", "hi bye", []⟩, ⟨60, "B", "yo", []⟩, ⟨120, "C", "hm", []⟩]
      ["bye"] [-1, 0] ["B"] rfl).1 0 (by decide) (by decide)
  · refine (c4_starters [⟨0, "A", "bye", []⟩] ["bye"] [-1, 0] ["A"] rfl).2 ?_
    intro i hi
    simp only [List.mem_cons, List.not_mem_nil, or_false] at hi
    show i + 1 = 1
    omega

end ChatApp
